import Mathlib

/-!
Verification development for the `website_extract` repository.

The Python sources (`fetch_to_md.py`, `extract_one_page.py`,
`extract_harililamrut_playwright.py`) are shallowly embedded below.
Strings are modelled as `List Char`; HTML trees as the inductive `Node`;
status codes as `Nat`.  External collaborators (HTTP transport, the
`markdownify` markup-to-text renderer) are modelled as explicit inputs.
-/

/-! ## String helpers mirroring Python primitives -/

/-- Python `str.lower()` (ASCII case folding suffices for every pattern used
by the sources). -/
def pyLower (s : List Char) : List Char := s.map Char.toLower

/-- Python `str.strip()`: drop leading and trailing whitespace. -/
def pyStrip (s : List Char) : List Char :=
  ((s.dropWhile Char.isWhitespace).reverse.dropWhile Char.isWhitespace).reverse

/-- `leadsWith needle hay`: Python `hay.startswith(needle)` over char lists. -/
def leadsWith : List Char → List Char → Bool
  | [], _ => true
  | _ :: _, [] => false
  | a :: x, b :: y => a == b && leadsWith x y

/-- `hasSub needle hay`: Python `needle in hay` (substring containment). -/
def hasSub (needle : List Char) : List Char → Bool
  | [] => needle.isEmpty
  | c :: rest => leadsWith needle (c :: rest) || hasSub needle rest

/-- Python `sep.join(parts)`. -/
def joinSep (sep : List Char) : List (List Char) → List Char
  | [] => []
  | [l] => l
  | l :: ls => l ++ sep ++ joinSep sep ls

/-- Python `str.isdigit()` (ASCII digits; the sources only ever meet ASCII
numerals). -/
def pyIsDigit (s : List Char) : Bool := !s.isEmpty && s.all Char.isDigit

/-- Decimal value of a digit run, Python `int(...)`. -/
def digitsToNat (l : List Char) : Nat :=
  l.foldl (fun a c => a * 10 + (c.toNat - '0'.toNat)) 0

/-! ## Error Classifier — `fetch_to_md.py`, `looks_like_error_page` -/

/-- `ERROR_PATTERNS` from `fetch_to_md.py`.  Every pattern is a literal
regex (the only metacharacters are escapes of literal brackets and
parentheses), so each is embedded as the literal string it matches. -/
def ERROR_PATTERNS : List (List Char) :=
  [ "max_user_connections".data,
    "SQLSTATE[HY000] [1203]".data,
    "already has more than 'max_user_connections'".data,
    "Call to a member function query() on null".data,
    "Fatal error".data,
    "Maximum execution time".data,
    "Service temporarily unavailable".data,
    "database is unavailable".data ]

/-- `looks_like_error_page(text)`: empty body, any (case-insensitively
matched) error pattern, or a whitespace-stripped length under 100 flags the
body as an error page. -/
def looks_like_error_page (text : List Char) : Bool :=
  if text.isEmpty then true
  else if ERROR_PATTERNS.any (fun pat => hasSub (pyLower pat) (pyLower text)) then true
  else if (pyStrip text).length < 100 then true
  else false

/-- The retry condition of the attempt loop in `fetch_with_backoff`
(`fetch_to_md.py` lines 116–128): 5xx or 429, or an HTTP-200 body that looks
like an error page. -/
def respTransient (status : Nat) (body : List Char) : Bool :=
  decide (500 ≤ status) || status == 429 || (status == 200 && looks_like_error_page body)

/-! ## Resilient Fetcher — `fetch_to_md.py`, `fetch_with_backoff` -/

def MAX_FETCH_ATTEMPTS : Nat := 6
def BACKOFF_INITIAL : Nat := 6
def BACKOFF_MULTIPLIER : Nat := 2

/-- Outcome the transport would produce for one attempt: a raised
`requests.RequestException`, or a response with status and body. -/
inductive Attempt where
  | netErr : Attempt
  | resp : Nat → List Char → Attempt

/-- An attempt that makes the loop back off and retry. -/
def attemptTransient : Attempt → Bool
  | .netErr => true
  | .resp s b => respTransient s b

/-- The `while attempt < max_attempts` loop of `fetch_with_backoff`, with
the remaining attempts' transport outcomes as input.  Returns the result
(`none` models the final `raise RuntimeError`), the number of requests
issued, and the list of sleep durations in order. -/
def fetchGo : List Attempt → Nat → Option (List Char) × Nat × List Nat
  | [], _ => (none, 0, [])
  | .netErr :: rest, backoff =>
    let r := fetchGo rest (backoff * BACKOFF_MULTIPLIER)
    (r.1, r.2.1 + 1, backoff :: r.2.2)
  | .resp s b :: rest, backoff =>
    if respTransient s b then
      let r := fetchGo rest (backoff * BACKOFF_MULTIPLIER)
      (r.1, r.2.1 + 1, backoff :: r.2.2)
    else
      (some b, 1, [])

/-- `fetch_with_backoff(url, max_attempts, backoff_initial)`: at most
`maxAttempts` attempts are consumed from the transport. -/
def fetch_with_backoff (attempts : List Attempt) (maxAttempts : Nat)
    (backoffInitial : Nat) : Option (List Char) × Nat × List Nat :=
  fetchGo (attempts.take maxAttempts) backoffInitial

/-- The geometric backoff schedule: `b, b*2, b*4, ...`. -/
def geomSleeps (b : Nat) : Nat → List Nat
  | 0 => []
  | n + 1 => b :: geomSleeps (b * BACKOFF_MULTIPLIER) n

/-! ## Blank-line normalization — `re.sub(r'\n{3,}', '\n\n', ...)`
(`extract_one_page.py` line 246, `fetch_to_md.py` line 317) -/

/-- Emit a pending run of `n` newlines, collapsing runs of three or more to
two (one blank line), exactly as the greedy regex replacement does. -/
def emitRun (n : Nat) : List Char :=
  if 3 ≤ n then ['\n', '\n'] else List.replicate n '\n'

/-- Single pass over the text, tracking the current run of newlines. -/
def collapseAux : List Char → Nat → List Char
  | [], n => emitRun n
  | c :: rest, n =>
    if c = '\n' then collapseAux rest (n + 1)
    else emitRun n ++ c :: collapseAux rest 0

/-- `re.sub(r'\n{3,}', '\n\n', s)`: every maximal run of three or more
newlines becomes exactly two newlines. -/
def collapseBlankRuns (s : List Char) : List Char := collapseAux s 0

/-- `noTriple s`: `s` contains no run of three consecutive newlines. -/
def noTriple : List Char → Bool
  | [] => true
  | [_] => true
  | [_, _] => true
  | a :: b :: c :: r =>
    !(a == '\n' && b == '\n' && c == '\n') && noTriple (b :: c :: r)

/-- The nonempty lines of a text: maximal segments between newlines,
dropping empty segments. -/
def neLines : List Char → List (List Char)
  | [] => []
  | c :: r =>
    if c = '\n' then neLines r
    else (c :: r.takeWhile (· != '\n')) :: neLines (r.dropWhile (· != '\n'))
termination_by s => s.length
decreasing_by
  all_goals
    have key : ∀ (p : Char → Bool) (l : List Char), (l.dropWhile p).length ≤ l.length := by
      intro p l
      induction l with
      | nil => simp [List.dropWhile]
      | cons x xs ih =>
        by_cases hp : p x
        · simpa [List.dropWhile, hp] using Nat.le_succ_of_le ih
        · simp [List.dropWhile, hp]
    simp only [List.length_cons]
    first
    | omega
    | exact Nat.lt_succ_of_le (key _ _)

/-! ## HTML tree model

BeautifulSoup trees are modelled by `Node`.  The `class` attribute is kept
as its space-joined string (`" ".join(tag.get('class'))`), which the
sources themselves compute before every class test; substring tests on the
joined string agree with BeautifulSoup's per-class tests for the
space-free needles used here. -/

structure Attrs where
  idAttr : Option (List Char) := none
  cls : List Char := []
  href : Option (List Char) := none
  style : Option (List Char) := none
deriving DecidableEq, Repr, Inhabited

inductive Node where
  | text : List Char → Node
  | elem : List Char → Attrs → List Node → Node

/-- Children of a node (`tag.contents`); text nodes have none. -/
def childrenOf : Node → List Node
  | .text _ => []
  | .elem _ _ cs => cs

def attrsOf : Node → Attrs
  | .text _ => default
  | .elem _ a _ => a

/-- `n` is an element with tag `t`. -/
def isTag (t : List Char) : Node → Bool
  | .text _ => false
  | .elem t' _ _ => t' == t

def isElem : Node → Bool
  | .text _ => false
  | .elem _ _ _ => true

mutual
/-- All descendants of a node in document (pre-)order, the universe
`find_all` / `find` search (the node itself excluded, as in BeautifulSoup). -/
def descs : Node → List Node
  | .text _ => []
  | .elem _ _ cs => descsL cs

def descsL : List Node → List Node
  | [] => []
  | c :: cs => c :: descs c ++ descsL cs
end

mutual
/-- Text fragments (`NavigableString`s) of a subtree in order. -/
def textFragsN : Node → List (List Char)
  | .text s => [s]
  | .elem _ _ cs => textFragsL cs

def textFragsL : List Node → List (List Char)
  | [] => []
  | c :: cs => textFragsN c ++ textFragsL cs
end

mutual
/-- `tag.get_text("", strip=True)`: concatenate the stripped fragments. -/
def getTextStripN : Node → List Char
  | .text s => pyStrip s
  | .elem _ _ cs => getTextStripL cs

def getTextStripL : List Node → List Char
  | [] => []
  | c :: cs => getTextStripN c ++ getTextStripL cs
end

/-- `get_text(" ", strip=True)` over a list of children: stripped nonempty
fragments joined by single spaces. -/
def getTextSpaceL (l : List Node) : List Char :=
  joinSep " ".data (((textFragsL l).map pyStrip).filter (fun s => !s.isEmpty))

mutual
/-- Serialization `str(node)` (attributes abbreviated: only emptiness of the
result matters to the embedded logic, and an element always serializes to a
nonempty string). -/
def serializeN : Node → List Char
  | .text s => s
  | .elem t _ cs => '<' :: (t ++ '>' :: serializeL cs) ++ '<' :: '/' :: t ++ ">".data

def serializeL : List Node → List Char
  | [] => []
  | c :: cs => serializeN c ++ serializeL cs
end

mutual
/-- Generic in-place removal pass: BeautifulSoup `decompose()` of every
node satisfying `drop`, scanning the tree in document order (a dropped
subtree is not scanned further, matching `decompose` on listed elements). -/
def filterTreeN (drop : Node → Bool) : Node → Node
  | .text s => .text s
  | .elem t a cs => .elem t a (filterTreeL drop cs)

def filterTreeL (drop : Node → Bool) : List Node → List Node
  | [] => []
  | c :: cs =>
    if drop c then filterTreeL drop cs
    else filterTreeN drop c :: filterTreeL drop cs
end

mutual
/-- Some node of the subtree rooted at `n` (including `n`) satisfies `p`. -/
def anyNodeN (p : Node → Bool) : Node → Bool
  | .text s => p (.text s)
  | .elem t a cs => p (.elem t a cs) || anyNodeL p cs

def anyNodeL (p : Node → Bool) : List Node → Bool
  | [] => false
  | c :: cs => anyNodeN p c || anyNodeL p cs
end

mutual
/-- Every node of the subtree rooted at `n` (including `n`) satisfies `p`. -/
def allNodesN (p : Node → Bool) : Node → Bool
  | .text s => p (.text s)
  | .elem t a cs => p (.elem t a cs) && allNodesL p cs

def allNodesL (p : Node → Bool) : List Node → Bool
  | [] => true
  | c :: cs => allNodesN p c && allNodesL p cs
end

/-- `tag.find('a')` succeeds below `n`. -/
def hasAnchorBelow (n : Node) : Bool := anyNodeL (isTag "a".data) (childrenOf n)

/-! ## Footnote Extractor — `extract_one_page.py`, `extract_footnotes` -/

/-- An anchor the per-entry cleaning removes (`extract_one_page.py` lines
112–115): local-fragment href, or a class containing a back-reference
marker. -/
def isSelfRefAnchorNode (n : Node) : Bool :=
  isTag "a".data n &&
    (leadsWith "#".data ((attrsOf n).href.getD []) ||
     hasSub "back".data (pyLower (attrsOf n).cls) ||
     hasSub "reverse".data (pyLower (attrsOf n).cls) ||
     hasSub "fnref".data (pyLower (attrsOf n).cls))

/-- A superscript the per-entry cleaning removes (`extract_one_page.py`
lines 117–124, run after anchor removal): no visible text, or any anchor
still below it. -/
def isBadSup (n : Node) : Bool :=
  isTag "sup".data n && ((getTextStripN n).isEmpty || hasAnchorBelow n)

/-- Per-entry cleaning of a footnote `li`'s contents: drop self-reference
anchors, then offending superscripts. -/
def cleanEntryL (cs : List Node) : List Node :=
  filterTreeL isBadSup (filterTreeL isSelfRefAnchorNode cs)

def cleanEntryN (n : Node) : Node :=
  filterTreeN isBadSup (filterTreeN isSelfRefAnchorNode n)

structure Footnote where
  fid : List Char
  num : Nat
  htmlTxt : List Char
  mdTxt : List Char
deriving DecidableEq, Repr

/-- `f"fn-{i}"`. -/
def defaultFnId (i : Nat) : List Char := "fn-".data ++ (toString i).data

/-- Python `x or d` for an optional string attribute (missing and empty are
both falsy). -/
def pyOrId (o : Option (List Char)) (d : List Char) : List Char :=
  match o with
  | some s => if s.isEmpty then d else s
  | none => d

def idOf (n : Node) : Option (List Char) := (attrsOf n).idAttr

/-- Build one record: `inner_html` (serialized, stripped), converted text
from the external renderer with the `get_text(" ", strip=True)` fallback,
id with the `fn-{i}` default. -/
def mkFootnote (render : List Node → List Char) (i : Nat)
    (origId : Option (List Char)) (cleaned : List Node) : Footnote :=
  let innerHtml := pyStrip (serializeL cleaned)
  let conv := pyStrip (render cleaned)
  let conv := if conv.isEmpty then getTextSpaceL cleaned else conv
  { fid := pyOrId origId (defaultFnId i), num := i, htmlTxt := innerHtml, mdTxt := conv }

/-- `for i, x in enumerate(items, start=i0)` mapped to records. -/
def enumMap (f : Nat → Node → Footnote) : Nat → List Node → List Footnote
  | _, [] => []
  | i, x :: xs => f i x :: enumMap f (i + 1) xs

def isFootnotesDivById (n : Node) : Bool :=
  isTag "div".data n && ((attrsOf n).idAttr == some "footnotes".data)

def isFootnotesDivByCls (n : Node) : Bool :=
  isTag "div".data n && hasSub "footnotes".data (attrsOf n).cls

/-- `soup.find("div", id="footnotes") or soup.find("div", class_=...)`. -/
def findFootnotesDiv (soup : Node) : Option Node :=
  ((descs soup).find? isFootnotesDivById) <|> ((descs soup).find? isFootnotesDivByCls)

/-- `extract_footnotes(soup)` (`extract_one_page.py` lines 96–157): locate
the container, then enumerate ordered-list items, else typed direct
children, else the whole container as one entry.  The external
`markdownify` converter is the `render` parameter. -/
def extract_footnotes (render : List Node → List Char) (soup : Node) : List Footnote :=
  match findFootnotesDiv soup with
  | none => []
  | some d =>
    match (descs d).find? (isTag "ol".data) with
    | some ol =>
      enumMap (fun i li => mkFootnote render i (idOf li) (cleanEntryL (childrenOf li))) 1
        ((childrenOf ol).filter (isTag "li".data))
    | none =>
      let typed := (childrenOf d).filter
        (fun c => isTag "li".data c || isTag "div".data c || isTag "p".data c)
      if typed.isEmpty then [mkFootnote render 1 (idOf d) (childrenOf d)]
      else
        enumMap
          (fun i el =>
            mkFootnote render i (idOf el) (filterTreeL isSelfRefAnchorNode (childrenOf el))) 1
          typed

/-! ## Page Renderer footnote section — `extract_one_page.py`,
`convert_and_write` lines 232–246 -/

/-- `re.sub(r'^\s*\d+\.\s*', '', txt)`: strip one leading enumeration
artifact such as `1. `. -/
def stripLeadingEnum (s : List Char) : List Char :=
  let s1 := s.dropWhile Char.isWhitespace
  let ds := s1.takeWhile Char.isDigit
  if ds.isEmpty then s
  else
    match s1.drop ds.length with
    | '.' :: rest => rest.dropWhile Char.isWhitespace
    | _ => s

/-- `txt = (e.get('md') or e.get('html') or '').strip()` then the
enumeration-artifact strip. -/
def entryTxt (e : Footnote) : List Char :=
  let t := if !e.mdTxt.isEmpty then e.mdTxt else if !e.htmlTxt.isEmpty then e.htmlTxt else []
  stripLeadingEnum (pyStrip t)

/-- One rendered footnote line: `f"[{e['num']}] {txt}"`. -/
def entryLine (e : Footnote) : List Char :=
  '[' :: (toString e.num).data ++ ']' :: ' ' :: entryTxt e

/-- The rendered footnotes section (empty when there are no records). -/
def footMd (fns : List Footnote) : List Char :=
  if fns.isEmpty then []
  else "\n\n## Footnotes\n\n".data ++ joinSep "\n\n".data (fns.map entryLine)

/-- `combined` as written to the output file: body text, optional footnotes
section, then the blank-line normalization. -/
def convertCombined (mdMain : List Char) (fns : List Footnote) : List Char :=
  collapseBlankRuns (if fns.isEmpty then mdMain else mdMain ++ "\n\n".data ++ footMd fns)

/-! ## Noise Classifier — `extract_one_page.py`, `remove_nav_table` -/

def NAV_LINK_PATTERNS : List (List Char) :=
  [ "/vachanamrut/".data, "/vato/".data, "/kirtan/".data,
    "/kavya/".data, "/aksharamrutam/".data, "/chintamani/".data ]

/-- `(table.get("style") or "").replace(" ", "").lower()` contains
`margin:auto`. -/
def styleMarginAuto (st : Option (List Char)) : Bool :=
  hasSub "margin:auto".data (pyLower ((st.getD []).filter (fun c => c != ' ')))

/-- Some anchor below the table has an href containing a nav path. -/
def anchorNavHit (n : Node) : Bool :=
  (descs n).any fun c =>
    isTag "a".data c && NAV_LINK_PATTERNS.any (fun p => hasSub p ((attrsOf c).href.getD []))

/-- A table `remove_nav_table` decomposes (`extract_one_page.py` lines
49–64). -/
def isNavTable (n : Node) : Bool :=
  isTag "table".data n && (styleMarginAuto (attrsOf n).style || anchorNavHit n)

def remove_nav_table (soup : Node) : Node := filterTreeN isNavTable soup

/-- The claim's own matching rule, modelled from the spec's words: style
contains `margin: Auto` in any letter case with any whitespace around the
colon (i.e. ignoring all whitespace).  Kept separate from
`styleMarginAuto`, which is the code's rule (spaces only). -/
def claimMarginAuto (s : List Char) : Bool :=
  hasSub "margin:auto".data (pyLower (s.filter (fun c => !c.isWhitespace)))

/-! ## Reference Resolver — `extract_one_page.py`,
`replace_inline_footnote_refs` -/

/-- `id_to_num = {e['id']: e['num'] for e in footnotes}` with Python's
last-wins dict semantics. -/
def idToNum (fns : List Footnote) (target : List Char) : Option Nat :=
  (fns.reverse.find? (fun e => e.fid == target)).map Footnote.num

def knownNums (fns : List Footnote) : List Nat := fns.map Footnote.num

/-- `re.search(r'(\d+)', target)`: first maximal digit run. -/
def firstDigitRun : List Char → Option (List Char)
  | [] => none
  | c :: r => if c.isDigit then some (c :: r.takeWhile Char.isDigit) else firstDigitRun r

/-- `re.search(r'fnref|footnote', cls, re.I)`. -/
def clsFnrefHit (cls : List Char) : Bool :=
  hasSub "fnref".data (pyLower cls) || hasSub "footnote".data (pyLower cls)

def bracketTxt (s : List Char) : List Char := '[' :: s ++ "]".data

/-- The conservative fallback rule: class marker or purely numeric text,
and a short (≤ 6 chars) visible text. -/
def anchorFallback (cls text : List Char) : Option (List Char) :=
  if (clsFnrefHit cls || pyIsDigit text) && text.length ≤ 6 then some (bracketTxt text)
  else none

/-- What the anchor loop does to one anchor: the replacement string, if
any (`extract_one_page.py` lines 169–196). -/
def anchorAction (fns : List Footnote) (n : Node) : Option (List Char) :=
  if isTag "a".data n then
    let a := attrsOf n
    let text := getTextStripN n
    match a.href.getD [] with
    | '#' :: target =>
      match idToNum fns target with
      | some num => some (bracketTxt (toString num).data)
      | none =>
        match firstDigitRun target with
        | some run =>
          if (knownNums fns).contains (digitsToNat run) then
            some (bracketTxt (toString (digitsToNat run)).data)
          else anchorFallback a.cls text
        | none => anchorFallback a.cls text
    | _ => anchorFallback a.cls text
  else none

/-- The standalone-superscript rule (`extract_one_page.py` lines 199–202). -/
def supAction (n : Node) : Option (List Char) :=
  if isTag "sup".data n then
    let txt := getTextStripN n
    if pyIsDigit txt && txt.length ≤ 4 then some (bracketTxt txt) else none
  else none

mutual
/-- `x.replace_with(NavigableString(txt))` applied throughout the tree for
every node on which `act` fires, in document order. -/
def replacePassN (act : Node → Option (List Char)) : Node → Node
  | .text s => .text s
  | .elem t a cs => .elem t a (replacePassL act cs)

def replacePassL (act : Node → Option (List Char)) : List Node → List Node
  | [] => []
  | c :: cs =>
    (match act c with
     | some txt => Node.text txt
     | none => replacePassN act c) :: replacePassL act cs
end

/-- `replace_inline_footnote_refs(soup, footnotes)`: the anchor pass, then
the superscript pass on the updated tree. -/
def replace_inline_footnote_refs (fns : List Footnote) (soup : Node) : Node :=
  replacePassN supAction (replacePassN (anchorAction fns) soup)

/-! ## Crawl Orchestrator — `fetch_to_md.py`, `run_resilient` -/

def MAX_PAGES : Nat := 1000

/-- A URL split into its fragment-free part and its fragment. -/
structure Url where
  base : List Char
  frag : List Char
deriving DecidableEq, Repr

/-- `urlparse(u)._replace(fragment="").geturl()`. -/
def normalizeUrl (u : Url) : Url := ⟨u.base, []⟩

/-- The `while current and page_count < max_pages` loop of `run_resilient`
(lines 265–310).  `site current` abstracts one fetch+parse: `none` is a
fetch that exhausts its retries (the loop breaks, appending nothing), and
`some nl` a processed page whose `find_next_link` result is `nl`.  Returns
the list of pages processed and appended, in order. -/
def crawlGo (site : Url → Option (Option Url)) : Nat → Url → List Url → List Url
  | 0, _, _ => []
  | fuel + 1, current, visited =>
    if current ∈ visited then []
    else
      match site current with
      | none => []
      | some nl =>
        match nl with
        | none => [current]
        | some nx =>
          let nn := normalizeUrl nx
          if nn ∈ current :: visited then [current]
          else current :: crawlGo site fuel nn (current :: visited)

def run_resilient (site : Url → Option (Option Url)) (maxPages : Nat) (start : Url) :
    List Url :=
  crawlGo site maxPages start []

/-! ## Concrete fixture inputs -/

/-- A 100-character body of unrelated prose (no error signature). -/
def okBody : List Char := List.replicate 100 'a'

/-- A body carrying a DB-failure signature. -/
def dbErrBody : List Char := "Warning: max_user_connections exceeded".data

/-- A stand-in for the external `markdownify` renderer used by fixtures:
any concrete function fits the collaborator contract. -/
def renderText (l : List Node) : List Char := getTextSpaceL l

/-- Fixture footnote list for the renderer fixtures. -/
def fixFns : List Footnote :=
  [ { fid := "x".data, num := 1, htmlTxt := "first".data, mdTxt := "first".data },
    { fid := "y".data, num := 2, htmlTxt := "second".data, mdTxt := "second".data } ]

/-- Fixture page: a `div#footnotes` with an `ol` of two `li` entries. -/
def fixOl : Node :=
  .elem "ol".data {}
    [ .elem "li".data { idAttr := some "x".data } [.text "first note of the page".data],
      .elem "li".data { idAttr := some "y".data } [.text "second note of the page".data] ]

def fixDiv : Node := .elem "div".data { idAttr := some "footnotes".data } [fixOl]

def fixSoup : Node :=
  .elem "[document]".data {}
    [.elem "body".data {} [.text "Main text.".data], fixDiv]

/-- A superscript wrapping an ordinary external hyperlink (not a
self-reference). -/
def plainLinkSup : Node :=
  .elem "sup".data {} [.elem "a".data { href := some "http://example.com".data } [.text "note".data]]

def plainLinkLi : Node := .elem "li".data {} [.text "See ".data, plainLinkSup]

/-- An entry whose anchors and superscripts the cleaning must preserve. -/
def benignLi : Node :=
  .elem "li".data {}
    [ .text "Cite ".data,
      .elem "a".data { href := some "http://example.com/a".data } [.text "source".data],
      .elem "sup".data {} [.text "nb".data] ]

/-- A back-reference anchor (a self-reference, by fragment href and class)
as found inside footnote entries. -/
def backRefAnchor : Node :=
  .elem "a".data { href := some "#fnref1".data, cls := "footnote-back".data }
    [.text "^".data]

/-- A table whose style has a tab between the colon and `auto`. -/
def tabStyleTable : Node :=
  .elem "table".data { style := some "margin:\tAuto".data } [.text "cell".data]

def tabStylePage : Node := .elem "body".data {} [tabStyleTable]

/-- A table with plain centered-auto-margin styling and link contents. -/
def spacedStyleTable : Node :=
  .elem "table".data { style := some "Margin : auto".data }
    [.elem "a".data { href := some "http://elsewhere".data } [.text "go".data]]

/-- A table that matches none of the removal rules. -/
def benignTable : Node :=
  .elem "table".data { style := some "color:red".data } [.text "data".data]

def navTablePage : Node := .elem "body".data {} [spacedStyleTable, benignTable]

/-- A footnote-reference-classed anchor whose visible text has 7
characters. -/
def longFnrefAnchor : Node :=
  .elem "a".data { cls := "fnref".data } [.text "abcdefg".data]

def longFnrefPage : Node := .elem "body".data {} [longFnrefAnchor]

/-- A page with no footnote container: a short numeric footnote-style
anchor and a bare numeric superscript. -/
def noFootnotesPage : Node :=
  .elem "body".data {}
    [ .text "Verse ".data,
      .elem "a".data { cls := "fnref".data } [.text "2".data],
      .text " and ".data,
      .elem "sup".data {} [.text "3".data] ]

/-- Three transient attempts (status 503). -/
def threeTransient : List Attempt := [.resp 503 [], .resp 503 [], .resp 503 []]

/-- Crawl fixture: page 2's next link points back at page 1 (with a
fragment, exercising normalization); page 3 exists but is never reached. -/
def crawlU1 : Url := ⟨"index.php?kalash=1&vishram=1".data, []⟩
def crawlU2 : Url := ⟨"index.php?kalash=1&vishram=2".data, []⟩
def crawlU3 : Url := ⟨"index.php?kalash=1&vishram=3".data, []⟩

def crawlSite : Url → Option (Option Url) := fun u =>
  if u = crawlU1 then some (some ⟨crawlU2.base, []⟩)
  else if u = crawlU2 then some (some ⟨crawlU1.base, "top".data⟩)
  else if u = crawlU3 then some none
  else none

/-! ## Predicates used by the statements below -/

/-- No table with (space-stripped, lowercased) `margin:auto` styling. -/
def noMarginAutoTable (x : Node) : Bool :=
  !(isTag "table".data x && styleMarginAuto (attrsOf x).style)

/-- A footnote entry is clean when it holds no self-reference anchor and no
superscript that is empty of visible text or still contains a hyperlink. -/
def entryCleanOkL (l : List Node) : Bool :=
  allNodesL (fun m => !isSelfRefAnchorNode m && !isBadSup m) l

/-! # Theorems -/

/-! ## Error Classifier (C1) -/

/-- C1 counterexample: the claim says a missing body yields transient for
every input, but at status 404 the classifier never consults the body and
the result is not transient. -/
theorem errorClassifier_missing_body_404_cex : respTransient 404 [] = false := by decide

/-- C1 (amended): the Error Classifier is a pure total function of
(status, body); status ≥ 500 or = 429 is transient for every body; at
status 200 a body containing a known upstream-failure signature
(case-insensitively), a body whose whitespace-stripped length is under 100
characters, or a missing body is transient, and a body with no signature
and stripped length at least 100 is not transient; for all other statuses
the body is not consulted and the result is not transient. -/
theorem errorClassifier_rules :
    (∀ (s : Nat) (b : List Char), 500 ≤ s ∨ s = 429 → respTransient s b = true) ∧
    (∀ b : List Char,
      (ERROR_PATTERNS.any fun p => hasSub (pyLower p) (pyLower b)) = true →
      respTransient 200 b = true) ∧
    (∀ b : List Char, (pyStrip b).length < 100 → respTransient 200 b = true) ∧
    respTransient 200 [] = true ∧
    (∀ b : List Char,
      (∀ p ∈ ERROR_PATTERNS, hasSub (pyLower p) (pyLower b) = false) →
      100 ≤ (pyStrip b).length → respTransient 200 b = false) ∧
    (∀ (s : Nat) (b : List Char), s < 500 → s ≠ 429 → s ≠ 200 →
      respTransient s b = false) := by
  refine ⟨?_, ?_, ?_, by decide, ?_, ?_⟩
  · intro s b h
    rcases h with h | h
    · simp [respTransient, decide_eq_true_eq.mpr h]
    · subst h; simp [respTransient]
  · intro b h
    by_cases hb : b.isEmpty
    · simp [respTransient, looks_like_error_page, hb]
    · simp [respTransient, looks_like_error_page, hb, h]
  · intro b h
    by_cases hb : b.isEmpty
    · simp [respTransient, looks_like_error_page, hb]
    · by_cases hp : (ERROR_PATTERNS.any fun p => hasSub (pyLower p) (pyLower b)) = true
      · simp [respTransient, looks_like_error_page, hb, hp]
      · simp [respTransient, looks_like_error_page, hb, hp, h]
  · intro b hpat hlen
    have hb : b.isEmpty = false := by
      cases b with
      | nil => simp [pyStrip] at hlen
      | cons c r => rfl
    have hp : (ERROR_PATTERNS.any fun p => hasSub (pyLower p) (pyLower b)) = false := by
      simp only [List.any_eq_false]
      intro p hpmem
      simp [hpat p hpmem]
    simp [respTransient, looks_like_error_page, hb, hp, Nat.not_lt.mpr hlen]
  · intro s b h5 h429 h200
    have d5 : decide (500 ≤ s) = false := by simp; omega
    have d429 : (s == 429) = false := by simp [h429]
    have d200 : (s == 200) = false := by simp [h200]
    simp [respTransient, d5, d429, d200]

/-- Witness for `errorClassifier_rules` at concrete inputs: 503 with an
empty body, 200 with a DB-error body, 200 with 100 characters of unrelated
prose, and 404 with that same prose. -/
theorem errorClassifier_rules_witness :
    respTransient 503 [] = true ∧ respTransient 200 dbErrBody = true ∧
    respTransient 200 okBody = false ∧ respTransient 404 okBody = false := by
  obtain ⟨h1, h2, _h3, _h4, h5, h6⟩ := errorClassifier_rules
  exact ⟨h1 503 [] (Or.inl (by decide)), h2 dbErrBody (by decide),
    h5 okBody (by decide) (by decide), h6 404 okBody (by decide) (by decide) (by decide)⟩

/-! ## Resilient Fetcher (C2, C8) -/

/-- When every remaining attempt is transient, the loop consumes them all,
sleeping the geometric schedule, and ends exhausted. -/
theorem fetchGo_all_transient (l : List Attempt) :
    ∀ b : Nat, (∀ a ∈ l, attemptTransient a = true) →
    fetchGo l b = (none, l.length, geomSleeps b l.length) := by
  induction l with
  | nil => intro b _; simp [fetchGo, geomSleeps]
  | cons a rest ih =>
    intro b h
    have hrest : ∀ x ∈ rest, attemptTransient x = true := fun x hx => h x (List.mem_cons_of_mem _ hx)
    cases a with
    | netErr =>
      simp [fetchGo, ih (b * BACKOFF_MULTIPLIER) hrest, geomSleeps]
    | resp s bd =>
      have ht : respTransient s bd = true := h _ (List.mem_cons_self _ _)
      simp [fetchGo, ht, ih (b * BACKOFF_MULTIPLIER) hrest, geomSleeps]

/-- The geometric schedule in closed form. -/
theorem geomSleeps_eq_map (n : Nat) :
    ∀ b : Nat, geomSleeps b n = (List.range n).map (fun i => b * BACKOFF_MULTIPLIER ^ i) := by
  induction n with
  | zero => intro b; simp [geomSleeps]
  | succ m ih =>
    intro b
    rw [geomSleeps, ih (b * BACKOFF_MULTIPLIER), List.range_succ_eq_map, List.map_cons,
      List.map_map]
    refine congrArg₂ _ (by simp) ?_
    refine List.map_congr_left fun i _ => ?_
    simp [Function.comp, pow_succ]
    ring

/-- The geometric schedule is strictly increasing when it starts positive. -/
theorem geomSleeps_chain (n : Nat) :
    ∀ b : Nat, 1 ≤ b → List.Chain' (· < ·) (geomSleeps b n) := by
  induction n with
  | zero => intro b _; simp [geomSleeps]
  | succ m ih =>
    intro b hb
    rw [geomSleeps]
    cases m with
    | zero => simp [geomSleeps]
    | succ k =>
      rw [geomSleeps]
      refine List.Chain'.cons ?_ ?_
      · have hm : BACKOFF_MULTIPLIER = 2 := rfl
        rw [hm]; omega
      · have h2 : 1 ≤ b * BACKOFF_MULTIPLIER := by
          have hm : BACKOFF_MULTIPLIER = 2 := rfl
          rw [hm]; omega
        simpa [geomSleeps] using ih (b * BACKOFF_MULTIPLIER) h2

/-- C2: for every sequence of transport outcomes and every attempt budget
N ≥ 1 in which every attempt is transient, the Fetcher issues exactly N
requests, sleeps the uncapped geometric schedule starting at
`BACKOFF_INITIAL` and multiplied by `BACKOFF_MULTIPLIER` after each retry —
a strictly increasing sequence — and ends exhausted (the `raise`) rather
than returning a body. -/
theorem fetcher_exhausts_all_transient (attempts : List Attempt) (N : Nat)
    (hN : 1 ≤ N) (hlen : attempts.length = N)
    (htr : ∀ a ∈ attempts, attemptTransient a = true) :
    fetch_with_backoff attempts N BACKOFF_INITIAL =
      (none, N, (List.range N).map (fun i => BACKOFF_INITIAL * BACKOFF_MULTIPLIER ^ i)) ∧
    List.Chain' (· < ·)
      ((List.range N).map (fun i => BACKOFF_INITIAL * BACKOFF_MULTIPLIER ^ i)) := by
  constructor
  · have htake : attempts.take N = attempts := by
      rw [← hlen]; exact List.take_length attempts
    rw [fetch_with_backoff, htake, fetchGo_all_transient attempts BACKOFF_INITIAL htr, hlen,
      geomSleeps_eq_map]
  · rw [← geomSleeps_eq_map]
    exact geomSleeps_chain N BACKOFF_INITIAL (by decide)

/-- Witness for `fetcher_exhausts_all_transient`: three 503 responses with
budget 3 give three requests, sleeps 6, 12, 24, and exhaustion. -/
theorem fetcher_exhausts_all_transient_witness :
    fetch_with_backoff threeTransient 3 BACKOFF_INITIAL = (none, 3, [6, 12, 24]) ∧
    List.Chain' (· < ·) ([6, 12, 24] : List Nat) := by
  have h := fetcher_exhausts_all_transient threeTransient 3 (by decide) (by decide)
    (by decide)
  have e : (List.range 3).map (fun i => BACKOFF_INITIAL * BACKOFF_MULTIPLIER ^ i) =
      [6, 12, 24] := by decide
  exact ⟨e ▸ h.1, e ▸ h.2⟩

/-- C8: an attempt answered with a non-transient redirect/client-error
status (3xx/4xx, not 429) makes the loop return that body at once: after
any transient prefix, the request count is the prefix's plus this one, the
sleeps are exactly the prefix's, and the body comes back unchanged. -/
theorem fetcher_client_error_immediate (pre : List Attempt)
    (hpre : ∀ a ∈ pre, attemptTransient a = true)
    (s : Nat) (b : List Char) (rest : List Attempt) (backoff : Nat)
    (h3 : 300 ≤ s) (h5 : s < 500) (h429 : s ≠ 429) :
    fetchGo (pre ++ .resp s b :: rest) backoff =
      (some b, pre.length + 1, geomSleeps backoff pre.length) := by
  have hrt : respTransient s b = false := by
    have d5 : decide (500 ≤ s) = false := by simp; omega
    have d429 : (s == 429) = false := by simp [h429]
    have d200 : (s == 200) = false := by simp; omega
    simp [respTransient, d5, d429, d200]
  induction pre generalizing backoff with
  | nil => simp [fetchGo, hrt, geomSleeps]
  | cons a l ih =>
    have hl : ∀ x ∈ l, attemptTransient x = true := fun x hx => hpre x (List.mem_cons_of_mem _ hx)
    cases a with
    | netErr =>
      simp [fetchGo, ih hl (backoff * BACKOFF_MULTIPLIER), geomSleeps]
    | resp s' b' =>
      have ht : respTransient s' b' = true := hpre _ (List.mem_cons_self _ _)
      simp [fetchGo, ht, ih hl (backoff * BACKOFF_MULTIPLIER), geomSleeps]

/-- Witness for `fetcher_client_error_immediate`: a lone 404 returns its
body with one request and no sleep. -/
theorem fetcher_client_error_immediate_witness :
    fetchGo [Attempt.resp 404 "Not found".data] BACKOFF_INITIAL =
      (some "Not found".data, 1, []) := by
  have h := fetcher_client_error_immediate [] (by simp) 404 "Not found".data []
    BACKOFF_INITIAL (by decide) (by decide) (by decide)
  simpa [geomSleeps] using h

/-! ## Crawl Orchestrator (C4) -/

/-- Loop invariant of `crawlGo`: the pages it processes are pairwise
distinct, none was already visited, and at most `fuel` pages fit in the
remaining page budget. -/
theorem crawlGo_inv (site : Url → Option (Option Url)) :
    ∀ (fuel : Nat) (cur : Url) (vis : List Url),
    (crawlGo site fuel cur vis).Nodup ∧
    ((crawlGo site fuel cur vis).all fun p => !(decide (p ∈ vis))) = true ∧
    (crawlGo site fuel cur vis).length ≤ fuel := by
  intro fuel
  induction fuel with
  | zero => intro cur vis; simp [crawlGo]
  | succ f ih =>
    intro cur vis
    rw [crawlGo]
    by_cases hv : cur ∈ vis
    · simp [hv]
    · simp only [hv, if_false]
      match site cur with
      | none => simp
      | some none => simp [hv]
      | some (some nx) =>
        by_cases hn : normalizeUrl nx ∈ cur :: vis
        · simp [hn, hv]
        · simp only [hn, if_false]
          obtain ⟨ihn, iha, ihl⟩ := ih (normalizeUrl nx) (cur :: vis)
          simp only [List.all_eq_true, Bool.not_eq_true', decide_eq_false_iff_not] at iha
          refine ⟨?_, ?_, ?_⟩
          · exact List.nodup_cons.mpr
              ⟨fun hc => (iha cur hc) (List.mem_cons_self _ _), ihn⟩
          · simp only [List.all_cons, List.all_eq_true, Bool.not_eq_true',
              decide_eq_false_iff_not, Bool.and_eq_true]
            exact ⟨by simpa using hv,
              fun p hp => fun hpv => (iha p hp) (List.mem_cons_of_mem _ hpv)⟩
          · simpa using Nat.succ_le_succ ihl

/-- C4: in the three-page fixture where page 2's next link points back at
page 1 (carrying a fragment), the crawl processes exactly pages 1 and 2,
in order, and stops; in general the loop never processes a URL twice or a
URL already visited, and never exceeds its page cap. -/
theorem crawl_revisit_terminates :
    run_resilient crawlSite MAX_PAGES crawlU1 = [crawlU1, crawlU2] ∧
    (∀ (site : Url → Option (Option Url)) (fuel : Nat) (cur : Url) (vis : List Url),
      (crawlGo site fuel cur vis).Nodup ∧
      ((crawlGo site fuel cur vis).all fun p => !(decide (p ∈ vis))) = true ∧
      (crawlGo site fuel cur vis).length ≤ fuel) := by
  constructor
  · decide
  · intro site fuel cur vis
    exact crawlGo_inv site fuel cur vis

/-! ## Blank-line normalization (C7) -/

theorem noTriple_tail (a : Char) (t : List Char) (h : noTriple (a :: t) = true) :
    noTriple t = true := by
  match t with
  | [] => rfl
  | [_] => rfl
  | b :: c :: r =>
    rw [noTriple, Bool.and_eq_true] at h
    exact h.2

theorem noTriple_drop_append (x y : List Char) (h : noTriple (x ++ y) = true) :
    noTriple y = true := by
  induction x with
  | nil => simpa using h
  | cons a t ih => exact ih (noTriple_tail a (t ++ y) (by simpa using h))

theorem noTriple_cons_of_ne (c : Char) (t : List Char) (hc : c ≠ '\n') :
    noTriple (c :: t) = noTriple t := by
  match t with
  | [] => rfl
  | [_] => rfl
  | b :: d :: r => simp [noTriple, hc]

theorem noTriple_nl_cons_of_ne (c : Char) (t : List Char) (hc : c ≠ '\n') :
    noTriple ('\n' :: c :: t) = noTriple (c :: t) := by
  match t with
  | [] => rfl
  | d :: r => simp [noTriple, hc]

theorem emitRun_two_plus (n : Nat) : emitRun (n + 2) = ['\n', '\n'] := by
  by_cases h : 3 ≤ n + 2
  · simp [emitRun, h]
  · have hn : n = 0 := by omega
    subst hn
    decide

theorem noTriple_emit_cons (n : Nat) (c : Char) (t : List Char) (hc : c ≠ '\n')
    (ht : noTriple t = true) : noTriple (emitRun n ++ c :: t) = true := by
  have hct : noTriple (c :: t) = true := by rwa [noTriple_cons_of_ne c t hc]
  match n with
  | 0 => simpa [emitRun] using hct
  | 1 => simpa [emitRun, noTriple_nl_cons_of_ne c t hc] using hct
  | m + 2 =>
    rw [emitRun_two_plus]
    simp [noTriple, hc, noTriple_nl_cons_of_ne c t hc, hct]

theorem noTriple_emit (n : Nat) : noTriple (emitRun n) = true := by
  match n with
  | 0 => decide
  | 1 => decide
  | m + 2 => rw [emitRun_two_plus]; decide

theorem noTriple_collapseAux (s : List Char) :
    ∀ n : Nat, noTriple (collapseAux s n) = true := by
  induction s with
  | nil => intro n; simpa [collapseAux] using noTriple_emit n
  | cons c r ih =>
    intro n
    by_cases hc : c = '\n'
    · simpa [collapseAux, hc] using ih (n + 1)
    · rw [collapseAux, if_neg hc]
      exact noTriple_emit_cons n c (collapseAux r 0) hc (ih 0)

theorem emitRun_small (n : Nat) (h : n ≤ 2) : emitRun n = List.replicate n '\n' := by
  have h3 : ¬ 3 ≤ n := by omega
  simp [emitRun, h3]

theorem collapseAux_of_noTriple (s : List Char) :
    ∀ n : Nat, n ≤ 2 → noTriple (List.replicate n '\n' ++ s) = true →
    collapseAux s n = List.replicate n '\n' ++ s := by
  induction s with
  | nil =>
    intro n hn _
    simp [collapseAux, emitRun_small n hn]
  | cons c r ih =>
    intro n hn h
    by_cases hc : c = '\n'
    · subst hc
      have hn1 : n ≤ 1 := by
        by_contra hgt
        have hn2 : n = 2 := by omega
        subst hn2
        simp [noTriple] at h
      have hrepl : List.replicate n '\n' ++ '\n' :: r =
          List.replicate (n + 1) '\n' ++ r := by
        rw [List.replicate_succ']
        simp
      rw [collapseAux, if_pos rfl, hrepl]
      exact ih (n + 1) (by omega) (by rwa [← hrepl])
    · have hr : noTriple r = true := by
        have h1 : noTriple (c :: r) = true :=
          noTriple_drop_append (List.replicate n '\n') (c :: r) h
        exact noTriple_tail c r h1
      rw [collapseAux, if_neg hc, ih 0 (by omega) (by simpa using hr),
        emitRun_small n hn]
      simp

theorem collapseAux_replicate_nl (k : Nat) (rest : List Char) :
    ∀ n : Nat, collapseAux (List.replicate k '\n' ++ rest) n = collapseAux rest (n + k) := by
  induction k with
  | zero => intro n; simp
  | succ m ih =>
    intro n
    rw [List.replicate_succ]
    simp only [List.cons_append]
    rw [collapseAux, if_pos rfl, ih (n + 1)]
    congr 1
    omega

/-- C7: the blank-line normalization of the Page Renderer is idempotent,
leaves no run of three or more newlines anywhere in its output, and turns
a run of `k ≥ 3` newlines (in particular any run of 3 or more blank lines)
between non-newline characters into exactly one blank line. -/
theorem blankLine_normalization_props :
    (∀ s : List Char, collapseBlankRuns (collapseBlankRuns s) = collapseBlankRuns s) ∧
    (∀ s : List Char, noTriple (collapseBlankRuns s) = true) ∧
    (∀ (k : Nat) (c d : Char), 3 ≤ k → c ≠ '\n' → d ≠ '\n' →
      collapseBlankRuns (c :: (List.replicate k '\n' ++ [d])) = [c, '\n', '\n', d]) := by
  refine ⟨?_, ?_, ?_⟩
  · intro s
    exact collapseAux_of_noTriple (collapseAux s 0) 0 (by omega)
      (by simpa using noTriple_collapseAux s 0)
  · intro s
    exact noTriple_collapseAux s 0
  · intro k c d hk hc hd
    rw [collapseBlankRuns, collapseAux, if_neg hc, collapseAux_replicate_nl k [d] 0]
    rw [collapseAux, if_neg hd]
    simp only [collapseAux]
    have h1 : emitRun 0 = [] := by decide
    have h2 : emitRun (0 + k) = ['\n', '\n'] := by
      match k, hk with
      | m + 3, _ =>
        rw [show (0 + (m + 3) = (m + 1) + 2) from by omega]
        exact emitRun_two_plus (m + 1)
    rw [h1, h2]
    rfl

/-- Witness for `blankLine_normalization_props`: collapsing a four-newline
run once reaches a fixed point of the normalization. -/
theorem blankLine_normalization_props_witness :
    collapseBlankRuns (collapseBlankRuns "a\n\n\n\nb".data) =
      collapseBlankRuns "a\n\n\n\nb".data ∧
    collapseBlankRuns ('a' :: (List.replicate 4 '\n' ++ ['b'])) = ['a', '\n', '\n', 'b'] := by
  obtain ⟨h1, _h2, h3⟩ := blankLine_normalization_props
  exact ⟨h1 "a\n\n\n\nb".data, h3 4 'a' 'b' (by decide) (by decide) (by decide)⟩

/-! ## Noise Classifier (C6) -/

theorem isTag_filterTreeN (drop : Node → Bool) (t : List Char) (n : Node) :
    isTag t (filterTreeN drop n) = isTag t n := by
  cases n with
  | text s => rfl
  | elem t' a cs => rfl

theorem attrsOf_filterTreeN (drop : Node → Bool) (n : Node) :
    attrsOf (filterTreeN drop n) = attrsOf n := by
  cases n with
  | text s => rfl
  | elem t' a cs => rfl

mutual
theorem remove_nav_table_clean (n : Node) :
    ((descs (filterTreeN isNavTable n)).all noMarginAutoTable) = true := by
  match n with
  | .text s => rfl
  | .elem t a cs =>
    have h := remove_nav_table_cleanL cs
    simpa [filterTreeN, descs] using h

theorem remove_nav_table_cleanL (l : List Node) :
    ((descsL (filterTreeL isNavTable l)).all noMarginAutoTable) = true := by
  match l with
  | [] => rfl
  | c :: cs =>
    by_cases hdrop : isNavTable c = true
    · simpa [filterTreeL, hdrop] using remove_nav_table_cleanL cs
    · have hkeep : noMarginAutoTable (filterTreeN isNavTable c) = true := by
        unfold noMarginAutoTable
        rw [isTag_filterTreeN, attrsOf_filterTreeN]
        by_cases htab : isTag "table".data c = true
        · have hf : styleMarginAuto (attrsOf c).style = false := by
            by_cases hsty : styleMarginAuto (attrsOf c).style = true
            · exact absurd (by simp [isNavTable, htab, hsty]) hdrop
            · exact Bool.eq_false_iff.mpr hsty
          simp [hf]
        · simp [Bool.eq_false_iff.mpr htab]
      have h1 := remove_nav_table_clean c
      have h2 := remove_nav_table_cleanL cs
      simp only [filterTreeL, hdrop, if_false, descsL, List.all_cons, List.all_append,
        Bool.and_eq_true]
      exact ⟨⟨hkeep, h1⟩, h2⟩
end

/-- C6 counterexample: a tab as the whitespace around the colon defeats the
code's space-only normalization — the claim covers any whitespace, yet the
table survives `remove_nav_table` untouched. -/
theorem navTable_tab_whitespace_cex :
    remove_nav_table tabStylePage = tabStylePage ∧
    claimMarginAuto "margin:\tAuto".data = true ∧
    styleMarginAuto (some "margin:\tAuto".data) = false :=
  ⟨rfl, by decide, by decide⟩

/-- C6 (amended): a table whose style contains `margin: Auto` in any letter
case and with any *spaces* (not other whitespace) around the colon is
removed unconditionally, regardless of its link contents, across all
matching tables: no such table survives anywhere in the output; in the
fixture, the `Margin : auto` table vanishes (its links notwithstanding)
while the benign table stays. -/
theorem navTable_margin_auto_removed :
    (∀ n : Node, ((descs (remove_nav_table n)).all noMarginAutoTable) = true) ∧
    remove_nav_table navTablePage = Node.elem "body".data {} [benignTable] :=
  ⟨fun n => remove_nav_table_clean n, rfl⟩

/-! ## Footnote entry cleaning (C5) -/

theorem bandE {a b : Bool} (h : (a && b) = true) : a = true ∧ b = true := by
  simp only [Bool.and_eq_true] at h
  exact h

theorem allNodesN_head (p : Node → Bool) (n : Node) (h : allNodesN p n = true) :
    p n = true := by
  cases n with
  | text s => simpa [allNodesN] using h
  | elem tg ats cs => simpa [allNodesN] using (bandE h).1

theorem allNodesN_children (p : Node → Bool) (n : Node) (h : allNodesN p n = true) :
    allNodesL p (childrenOf n) = true := by
  cases n with
  | text s => rfl
  | elem tg ats cs => simpa [childrenOf, allNodesN] using (bandE h).2

mutual
theorem allNodesN_and (p q : Node → Bool) (n : Node) :
    allNodesN (fun m => p m && q m) n = (allNodesN p n && allNodesN q n) := by
  cases n with
  | text s => rfl
  | elem tg ats cs =>
    simp only [allNodesN, allNodesL_and p q cs]
    cases p (Node.elem tg ats cs) <;> cases q (Node.elem tg ats cs) <;>
      cases allNodesL p cs <;> cases allNodesL q cs <;> rfl

theorem allNodesL_and (p q : Node → Bool) (l : List Node) :
    allNodesL (fun m => p m && q m) l = (allNodesL p l && allNodesL q l) := by
  cases l with
  | nil => rfl
  | cons c cs =>
    simp only [allNodesL, allNodesN_and p q c, allNodesL_and p q cs]
    cases allNodesN p c <;> cases allNodesN q c <;>
      cases allNodesL p cs <;> cases allNodesL q cs <;> rfl
end

mutual
theorem filterTree_idN (drop : Node → Bool) (n : Node)
    (h : allNodesN (fun m => !drop m) n = true) : filterTreeN drop n = n := by
  cases n with
  | text s => rfl
  | elem tg ats cs =>
    have hcs : allNodesL (fun m => !drop m) cs = true := by
      simpa [allNodesN] using (bandE h).2
    simp [filterTreeN, filterTree_idL drop cs hcs]

theorem filterTree_idL (drop : Node → Bool) (l : List Node)
    (h : allNodesL (fun m => !drop m) l = true) : filterTreeL drop l = l := by
  cases l with
  | nil => rfl
  | cons c cs =>
    obtain ⟨hc, hcs⟩ := bandE h
    have hdrop : drop c = false := by
      simpa using allNodesN_head _ c hc
    simp [filterTreeL, hdrop, filterTree_idN drop c hc, filterTree_idL drop cs hcs]
end

mutual
theorem anyTagFalseN (drop : Node → Bool) (tg : List Char) (n : Node)
    (h : anyNodeN (isTag tg) n = false) :
    anyNodeN (isTag tg) (filterTreeN drop n) = false := by
  cases n with
  | text s => simpa using h
  | elem t ats cs =>
    simp only [anyNodeN, Bool.or_eq_false_iff] at h
    simp only [filterTreeN, anyNodeN, Bool.or_eq_false_iff]
    exact ⟨by simpa [isTag] using h.1, anyTagFalseL drop tg cs h.2⟩

theorem anyTagFalseL (drop : Node → Bool) (tg : List Char) (l : List Node)
    (h : anyNodeL (isTag tg) l = false) :
    anyNodeL (isTag tg) (filterTreeL drop l) = false := by
  cases l with
  | nil => rfl
  | cons c cs =>
    simp only [anyNodeL, Bool.or_eq_false_iff] at h
    by_cases hd : drop c = true
    · simpa [filterTreeL, hd] using anyTagFalseL drop tg cs h.2
    · simp only [filterTreeL, hd, if_false, anyNodeL, Bool.or_eq_false_iff]
      exact ⟨anyTagFalseN drop tg c h.1, anyTagFalseL drop tg cs h.2⟩
end

mutual
theorem textPresN (n : Node) (h : anyNodeN (isTag "a".data) n = false) :
    getTextStripN (filterTreeN isBadSup n) = getTextStripN n := by
  cases n with
  | text s => rfl
  | elem t ats cs =>
    have hcs : anyNodeL (isTag "a".data) cs = false := by
      simp only [anyNodeN, Bool.or_eq_false_iff] at h
      exact h.2
    simp [filterTreeN, getTextStripN, textPresL cs hcs]

theorem textPresL (l : List Node) (h : anyNodeL (isTag "a".data) l = false) :
    getTextStripL (filterTreeL isBadSup l) = getTextStripL l := by
  cases l with
  | nil => rfl
  | cons c cs =>
    simp only [anyNodeL, Bool.or_eq_false_iff] at h
    by_cases hd : isBadSup c = true
    · have hempty : getTextStripN c = [] := by
        cases c with
        | text s => simp [isBadSup, isTag] at hd
        | elem t ats ccs =>
          have hanch : hasAnchorBelow (Node.elem t ats ccs) = false := by
            have h1 := h.1
            simp only [anyNodeN, Bool.or_eq_false_iff] at h1
            simpa [hasAnchorBelow, childrenOf] using h1.2
          have hd' := hd
          simp only [isBadSup, hanch, Bool.or_false, Bool.and_eq_true] at hd'
          exact List.isEmpty_iff.mp hd'.2
      simp [filterTreeL, hd, textPresL cs h.2, getTextStripL, hempty]
    · simp only [filterTreeL, hd, if_false, getTextStripL]
      rw [textPresN c h.1, textPresL cs h.2]
end

mutual
theorem supSafeN (n : Node) :
    allNodesL (fun m => !isBadSup m) (filterTreeL isBadSup (childrenOf n)) = true := by
  cases n with
  | text s => rfl
  | elem t ats cs => simpa [childrenOf] using supSafeL cs

theorem supSafeL (l : List Node) :
    allNodesL (fun m => !isBadSup m) (filterTreeL isBadSup l) = true := by
  cases l with
  | nil => rfl
  | cons c cs =>
    by_cases hd : isBadSup c = true
    · simpa [filterTreeL, hd] using supSafeL cs
    · have hcKept : isBadSup (filterTreeN isBadSup c) = false := by
        cases c with
        | text s => simp [filterTreeN, isBadSup, isTag]
        | elem t ats ccs =>
          by_cases hsup : (t == "sup".data) = true
          · have hne : (getTextStripL ccs).isEmpty = false := by
              by_cases hh : (getTextStripL ccs).isEmpty = true
              · exact absurd (by simp [isBadSup, isTag, hsup, getTextStripN, hh]) hd
              · exact Bool.eq_false_iff.mpr hh
            have hanch : anyNodeL (isTag "a".data) ccs = false := by
              by_cases hh : anyNodeL (isTag "a".data) ccs = true
              · exact absurd
                  (by simp [isBadSup, isTag, hsup, hasAnchorBelow, childrenOf, hh]) hd
              · exact Bool.eq_false_iff.mpr hh
            have htext := textPresL ccs hanch
            have hanchF := anyTagFalseL isBadSup "a".data ccs hanch
            simp [filterTreeN, isBadSup, isTag, hsup, hasAnchorBelow, childrenOf,
              getTextStripN, htext, hanchF, hne]
          · simp [isBadSup, filterTreeN, isTag, hsup]
      simp only [filterTreeL, hd, if_false, allNodesL, Bool.and_eq_true]
      constructor
      · cases c with
        | text s => simp [filterTreeN, allNodesN, isBadSup, isTag]
        | elem t ats ccs =>
          simp only [filterTreeN, allNodesN, Bool.and_eq_true]
          constructor
          · have := hcKept
            simp only [filterTreeN] at this
            simp [this]
          · simpa [childrenOf] using supSafeL ccs
      · exact supSafeL cs
end

theorem selfref_indep (drop : Node → Bool) (n : Node) :
    isSelfRefAnchorNode (filterTreeN drop n) = isSelfRefAnchorNode n := by
  cases n with
  | text s => rfl
  | elem t ats cs => rfl

mutual
theorem selfrefSafeN (n : Node) :
    allNodesL (fun m => !isSelfRefAnchorNode m)
      (filterTreeL isSelfRefAnchorNode (childrenOf n)) = true := by
  cases n with
  | text s => rfl
  | elem t ats cs => simpa [childrenOf] using selfrefSafeL cs

theorem selfrefSafeL (l : List Node) :
    allNodesL (fun m => !isSelfRefAnchorNode m) (filterTreeL isSelfRefAnchorNode l) = true := by
  cases l with
  | nil => rfl
  | cons c cs =>
    by_cases hd : isSelfRefAnchorNode c = true
    · simpa [filterTreeL, hd] using selfrefSafeL cs
    · simp only [filterTreeL, hd, if_false, allNodesL, Bool.and_eq_true]
      refine ⟨?_, selfrefSafeL cs⟩
      cases c with
      | text s => simp [filterTreeN, allNodesN, isSelfRefAnchorNode, isTag]
      | elem t ats ccs =>
        simp only [filterTreeN, allNodesN, Bool.and_eq_true]
        constructor
        · have : isSelfRefAnchorNode (Node.elem t ats (filterTreeL isSelfRefAnchorNode ccs)) =
              isSelfRefAnchorNode (Node.elem t ats ccs) := rfl
          simp [this, hd]
        · simpa [childrenOf] using selfrefSafeL ccs
end

mutual
theorem selfrefPresN (n : Node)
    (h : allNodesN (fun m => !isSelfRefAnchorNode m) n = true) :
    allNodesN (fun m => !isSelfRefAnchorNode m) (filterTreeN isBadSup n) = true := by
  cases n with
  | text s => simpa using h
  | elem t ats cs =>
    simp only [allNodesN, Bool.and_eq_true] at h
    simp only [filterTreeN, allNodesN, Bool.and_eq_true]
    exact ⟨h.1, selfrefPresL cs h.2⟩

theorem selfrefPresL (l : List Node)
    (h : allNodesL (fun m => !isSelfRefAnchorNode m) l = true) :
    allNodesL (fun m => !isSelfRefAnchorNode m) (filterTreeL isBadSup l) = true := by
  cases l with
  | nil => rfl
  | cons c cs =>
    simp only [allNodesL, Bool.and_eq_true] at h
    by_cases hd : isBadSup c = true
    · simpa [filterTreeL, hd] using selfrefPresL cs h.2
    · simp only [filterTreeL, hd, if_false, allNodesL, Bool.and_eq_true]
      exact ⟨selfrefPresN c h.1, selfrefPresL cs h.2⟩
end

/-- C5 counterexample: a superscript that wraps an ordinary external
hyperlink — not a self-reference — is nonetheless removed by the per-entry
cleaning, contradicting "only those superscripts that solely wrap such a
self-reference link". -/
theorem entryClean_plain_link_sup_cex :
    cleanEntryN plainLinkLi = Node.elem "li".data {} [Node.text "See ".data] ∧
    isSelfRefAnchorNode
      (Node.elem "a".data { href := some "http://example.com".data }
        [Node.text "note".data]) = false :=
  ⟨rfl, by decide⟩

theorem filterTreeL_append (drop : Node → Bool) (xs ys : List Node) :
    filterTreeL drop (xs ++ ys) = filterTreeL drop xs ++ filterTreeL drop ys := by
  induction xs with
  | nil => rfl
  | cons c cs ih =>
    by_cases hd : drop c = true
    · simp [filterTreeL, hd, ih]
    · simp [filterTreeL, hd, ih]

theorem cleanEntryL_append (xs ys : List Node) :
    cleanEntryL (xs ++ ys) = cleanEntryL xs ++ cleanEntryL ys := by
  unfold cleanEntryL
  rw [filterTreeL_append, filterTreeL_append]

theorem cleanEntry_text (s : List Char) : cleanEntryL [Node.text s] = [Node.text s] := rfl

theorem cleanEntry_dropSelfref (n : Node) (h : isSelfRefAnchorNode n = true) :
    cleanEntryL [n] = [] := by
  simp [cleanEntryL, filterTreeL, h]

theorem cleanEntry_dropSup (t : List Char) (a : Attrs) (cs : List Node)
    (h1 : isSelfRefAnchorNode (Node.elem t a cs) = false)
    (h2 : isBadSup (filterTreeN isSelfRefAnchorNode (Node.elem t a cs)) = true) :
    cleanEntryL [Node.elem t a cs] = [] := by
  have h2' : isBadSup (Node.elem t a (filterTreeL isSelfRefAnchorNode cs)) = true := by
    simpa [filterTreeN] using h2
  simp [cleanEntryL, filterTreeL, filterTreeN, h1, h2']

theorem cleanEntry_keep (t : List Char) (a : Attrs) (cs : List Node)
    (h1 : isSelfRefAnchorNode (Node.elem t a cs) = false)
    (h2 : isBadSup (filterTreeN isSelfRefAnchorNode (Node.elem t a cs)) = false) :
    cleanEntryL [Node.elem t a cs] = [Node.elem t a (cleanEntryL cs)] := by
  have h2' : isBadSup (Node.elem t a (filterTreeL isSelfRefAnchorNode cs)) = false := by
    simpa [filterTreeN] using h2
  simp [cleanEntryL, filterTreeL, filterTreeN, h1, h2']

/-- C5 (amended): per-entry cleaning in `extract_one_page.py` removes
exactly the self-reference hyperlinks (local-fragment href or
back/reverse/fnref class marker) and the superscripts whose visible text
after that removal is empty or which still contain any hyperlink,
self-reference or not — the hyperlinks inside such superscripts vanish
with them.  Every other node, in particular every other hyperlink and
superscript, is preserved in place even when the same entry also contains
removed nodes: cleaning distributes over entry contents, keeps text nodes,
drops exactly the nodes just described, and keeps every other element
while cleaning its children by the same rules; afterwards no
self-reference anchor or offending superscript survives.  (The also-cited
playwright variant differs: it drops a superscript only when one still
contains a hyperlink, keeping textless ones.) -/
theorem entryClean_safety_and_characterization :
    (∀ cs : List Node, entryCleanOkL (cleanEntryL cs) = true) ∧
    (∀ xs ys : List Node, cleanEntryL (xs ++ ys) = cleanEntryL xs ++ cleanEntryL ys) ∧
    (∀ s : List Char, cleanEntryL [Node.text s] = [Node.text s]) ∧
    (∀ n : Node, isSelfRefAnchorNode n = true → cleanEntryL [n] = []) ∧
    (∀ (t : List Char) (a : Attrs) (cs : List Node),
      isSelfRefAnchorNode (Node.elem t a cs) = false →
      isBadSup (filterTreeN isSelfRefAnchorNode (Node.elem t a cs)) = true →
      cleanEntryL [Node.elem t a cs] = []) ∧
    (∀ (t : List Char) (a : Attrs) (cs : List Node),
      isSelfRefAnchorNode (Node.elem t a cs) = false →
      isBadSup (filterTreeN isSelfRefAnchorNode (Node.elem t a cs)) = false →
      cleanEntryL [Node.elem t a cs] = [Node.elem t a (cleanEntryL cs)]) := by
  refine ⟨?_, cleanEntryL_append, cleanEntry_text, cleanEntry_dropSelfref,
    cleanEntry_dropSup, cleanEntry_keep⟩
  intro cs
  unfold entryCleanOkL cleanEntryL
  rw [allNodesL_and]
  simp only [Bool.and_eq_true]
  exact ⟨selfrefPresL _ (selfrefSafeL cs), supSafeL _⟩

/-- Witness for `entryClean_safety_and_characterization`: in a dirty entry
— a back-reference anchor followed by ordinary text, an external hyperlink
and a text superscript — cleaning removes exactly the back-reference and
preserves everything else in place, and the result is clean. -/
theorem entryClean_safety_and_characterization_witness :
    cleanEntryL (backRefAnchor :: childrenOf benignLi) = childrenOf benignLi ∧
    entryCleanOkL (cleanEntryL (backRefAnchor :: childrenOf benignLi)) = true := by
  obtain ⟨hsafe, happ, htext, hself, _hdrop, hkeep⟩ :=
    entryClean_safety_and_characterization
  constructor
  · have h0 : backRefAnchor :: childrenOf benignLi =
        [backRefAnchor] ++ childrenOf benignLi := rfl
    have h1 : childrenOf benignLi =
        ([Node.text "Cite ".data] ++
          [Node.elem "a".data { href := some "http://example.com/a".data }
            [Node.text "source".data]]) ++
          [Node.elem "sup".data {} [Node.text "nb".data]] := rfl
    rw [h0, happ, hself backRefAnchor (by decide), h1, happ, happ, htext,
      hkeep "a".data { href := some "http://example.com/a".data }
        [Node.text "source".data] (by decide) (by decide),
      hkeep "sup".data {} [Node.text "nb".data] (by decide) (by decide),
      htext, htext]
    rfl
  · exact hsafe _

/-! ## Rendered footnote lines (C3) -/

theorem dropWhileLenLe (p : Char → Bool) (l : List Char) :
    (l.dropWhile p).length ≤ l.length := by
  induction l with
  | nil => simp [List.dropWhile]
  | cons x xs ih =>
    by_cases hp : p x
    · simpa [List.dropWhile, hp] using Nat.le_succ_of_le ih
    · simp [List.dropWhile, hp]

theorem twAppend (p : Char → Bool) (l m : List Char) (h : l.all p = true) :
    (l ++ m).takeWhile p = l ++ m.takeWhile p := by
  induction l with
  | nil => simp
  | cons a t ih =>
    rw [List.all_cons] at h
    obtain ⟨ha, ht⟩ := bandE h
    simp [List.takeWhile_cons, ha, ih ht]

theorem dwAppend (p : Char → Bool) (l m : List Char) (h : l.all p = true) :
    (l ++ m).dropWhile p = m.dropWhile p := by
  induction l with
  | nil => simp
  | cons a t ih =>
    rw [List.all_cons] at h
    obtain ⟨ha, ht⟩ := bandE h
    simp [List.dropWhile_cons, ha, ih ht]

theorem allTakeWhile (p : Char → Bool) (l : List Char) :
    (l.takeWhile p).all p = true := by
  induction l with
  | nil => simp
  | cons a t ih =>
    by_cases ha : p a
    · simp [List.takeWhile_cons, ha, ih]
    · simp [List.takeWhile_cons, ha]

theorem dwHeadNot (p : Char → Bool) (l : List Char) (d : Char) (ds : List Char)
    (h : l.dropWhile p = d :: ds) : p d = false := by
  induction l with
  | nil => simp [List.dropWhile] at h
  | cons a t ih =>
    by_cases ha : p a
    · exact ih (by simpa [List.dropWhile, ha] using h)
    · rw [List.dropWhile_cons, if_neg ha] at h
      cases h
      simpa using ha

theorem neLines_nil : neLines [] = [] := by
  rw [neLines]

theorem neLines_cons_nl (r : List Char) : neLines ('\n' :: r) = neLines r := by
  rw [neLines, if_pos rfl]

theorem neLines_cons_ne (c : Char) (r : List Char) (hc : ¬ c = '\n') :
    neLines (c :: r) =
      (c :: r.takeWhile (· != '\n')) :: neLines (r.dropWhile (· != '\n')) := by
  rw [neLines, if_neg hc]

theorem neLines_replicate (k : Nat) (t : List Char) :
    neLines (List.replicate k '\n' ++ t) = neLines t := by
  induction k with
  | zero => simp
  | succ m ih =>
    rw [List.replicate_succ, List.cons_append, neLines_cons_nl, ih]

theorem emitRun_replicate (n : Nat) : ∃ k, emitRun n = List.replicate k '\n' := by
  by_cases h3 : 3 ≤ n
  · exact ⟨2, by simp [emitRun, h3]⟩
  · exact ⟨n, by simp [emitRun, h3]⟩

theorem neLines_emit_append (n : Nat) (t : List Char) :
    neLines (emitRun n ++ t) = neLines t := by
  obtain ⟨k, hk⟩ := emitRun_replicate n
  rw [hk, neLines_replicate]

theorem collapseAux_copy (r : List Char) :
    collapseAux r 0 =
      r.takeWhile (· != '\n') ++ collapseAux (r.dropWhile (· != '\n')) 0 := by
  induction r with
  | nil => simp [List.takeWhile, List.dropWhile]
  | cons c rest ih =>
    by_cases hc : c = '\n'
    · subst hc
      simp [List.takeWhile_cons, List.dropWhile_cons]
    · rw [collapseAux, if_neg hc]
      have hc' : (c != '\n') = true := by simpa using hc
      simp only [emitRun, List.takeWhile_cons, List.dropWhile_cons, hc', if_true]
      simpa using ih

theorem collapseAux_succ_head (x : List Char) :
    ∀ n : Nat, ∃ y, collapseAux x (n + 1) = '\n' :: y := by
  induction x with
  | nil =>
    intro n
    match n with
    | 0 => exact ⟨[], by simp [collapseAux, emitRun]⟩
    | m + 1 =>
      refine ⟨['\n'], ?_⟩
      rw [collapseAux, show (m + 1 + 1 = m + 2) from rfl, emitRun_two_plus]
  | cons c rest ih =>
    intro n
    by_cases hc : c = '\n'
    · subst hc
      obtain ⟨y, hy⟩ := ih (n + 1)
      exact ⟨y, by rw [collapseAux, if_pos rfl]; exact hy⟩
    · rw [collapseAux, if_neg hc]
      match n with
      | 0 => exact ⟨c :: collapseAux rest 0, by simp [emitRun]⟩
      | m + 1 =>
        refine ⟨'\n' :: c :: collapseAux rest 0, ?_⟩
        rw [show (m + 1 + 1 = m + 2) from rfl, emitRun_two_plus]
        rfl

theorem neLines_collapseAux (s : List Char) (n : Nat) :
    neLines (collapseAux s n) = neLines s := by
  match s with
  | [] =>
    rw [collapseAux]
    simpa using neLines_emit_append n []
  | c :: r =>
    by_cases hc : c = '\n'
    · subst hc
      rw [collapseAux, if_pos rfl, neLines_cons_nl]
      exact neLines_collapseAux r (n + 1)
    · have hall : (r.takeWhile (· != '\n')).all (· != '\n') = true :=
        allTakeWhile (· != '\n') r
      rw [collapseAux, if_neg hc, neLines_emit_append, collapseAux_copy r,
        neLines_cons_ne c _ hc, neLines_cons_ne c r hc,
        twAppend (· != '\n') _ _ hall, dwAppend (· != '\n') _ _ hall]
      match hdw : r.dropWhile (· != '\n') with
      | [] =>
        simp [collapseAux, emitRun, List.takeWhile, List.dropWhile, neLines_nil]
      | d :: ds =>
        have hd : d = '\n' := by
          have := dwHeadNot (· != '\n') r d ds hdw
          simpa using this
        subst hd
        have hstep : collapseAux ('\n' :: ds) 0 = collapseAux ds 1 := by
          rw [collapseAux, if_pos rfl]
        obtain ⟨y, hy⟩ := collapseAux_succ_head ds 0
        have hrec : neLines (collapseAux ('\n' :: ds) 0) = neLines ('\n' :: ds) :=
          neLines_collapseAux ('\n' :: ds) 0
        rw [hstep, hy]
        have ht : List.takeWhile (· != '\n') ('\n' :: y) = [] := by
          simp [List.takeWhile_cons]
        have hdrop : List.dropWhile (· != '\n') ('\n' :: y) = '\n' :: y := by
          simp [List.dropWhile_cons]
        rw [ht, hdrop, List.append_nil, ← hy, ← hstep, hrec, neLines_cons_nl]
termination_by s.length
decreasing_by
  · simp
  · have h1 : (r.dropWhile (· != '\n')).length ≤ r.length := dropWhileLenLe _ r
    rw [hdw] at h1
    simp only [List.length_cons] at h1 ⊢
    omega

theorem twAll (p : Char → Bool) (l : List Char) (h : l.all p = true) :
    l.takeWhile p = l := by
  have := twAppend p l [] h
  simpa using this

theorem dwAll (p : Char → Bool) (l : List Char) (h : l.all p = true) :
    l.dropWhile p = [] := by
  have := dwAppend p l [] h
  simpa using this

theorem neLines_single (l : List Char) (hne : l ≠ [])
    (hall : l.all (· != '\n') = true) : neLines l = [l] := by
  cases l with
  | nil => exact absurd rfl hne
  | cons c t =>
    rw [List.all_cons] at hall
    obtain ⟨hc, ht⟩ := bandE hall
    have hc' : ¬ c = '\n' := by simpa using hc
    rw [neLines_cons_ne c t hc', twAll _ t ht, dwAll _ t ht, neLines_nil]

theorem neLines_block (l rest : List Char) (hne : l ≠ [])
    (hall : l.all (· != '\n') = true) :
    neLines (l ++ '\n' :: '\n' :: rest) = l :: neLines rest := by
  cases l with
  | nil => exact absurd rfl hne
  | cons c t =>
    rw [List.all_cons] at hall
    obtain ⟨hc, ht⟩ := bandE hall
    have hc' : ¬ c = '\n' := by simpa using hc
    rw [List.cons_append, neLines_cons_ne c _ hc',
      twAppend _ t _ ht, dwAppend _ t _ ht]
    have h1 : List.takeWhile (· != '\n') ('\n' :: '\n' :: rest) = [] := by
      simp [List.takeWhile_cons]
    have h2 : List.dropWhile (· != '\n') ('\n' :: '\n' :: rest) =
        '\n' :: '\n' :: rest := by
      simp [List.dropWhile_cons]
    rw [h1, h2, List.append_nil, neLines_cons_nl, neLines_cons_nl]

theorem neLines_joinSep (lines : List (List Char))
    (h : ∀ l ∈ lines, l ≠ [] ∧ l.all (· != '\n') = true) :
    neLines (joinSep "\n\n".data lines) = lines := by
  match lines with
  | [] => rw [joinSep, neLines_nil]
  | [l] =>
    rw [joinSep]
    exact neLines_single l (h l (by simp)).1 (h l (by simp)).2
  | l :: l2 :: ls =>
    rw [joinSep]
    have hsep : l ++ "\n\n".data ++ joinSep "\n\n".data (l2 :: ls) =
        l ++ '\n' :: '\n' :: joinSep "\n\n".data (l2 :: ls) := by
      rw [List.append_assoc]
      rfl
    rw [hsep, neLines_block l _ (h l (by simp)).1 (h l (by simp)).2,
      neLines_joinSep (l2 :: ls) (fun x hx => h x (by simp [hx]))]
    simp

theorem footMd_lines (fns : List Footnote) (hne : fns ≠ [])
    (h : ∀ e ∈ fns, (entryLine e).all (· != '\n') = true) :
    neLines (footMd fns) = "## Footnotes".data :: fns.map entryLine := by
  have hEmpty : fns.isEmpty = false := by
    cases fns with
    | nil => exact absurd rfl hne
    | cons a t => rfl
  have hcond : ∀ l ∈ fns.map entryLine, l ≠ [] ∧ l.all (· != '\n') = true := by
    intro l hl
    obtain ⟨e, he, rfl⟩ := List.mem_map.mp hl
    exact ⟨by simp [entryLine], h e he⟩
  rw [footMd, if_neg (by simp [hEmpty])]
  have hsplit : "\n\n## Footnotes\n\n".data ++ joinSep "\n\n".data (fns.map entryLine) =
      '\n' :: '\n' ::
        ("## Footnotes".data ++ '\n' :: '\n' :: joinSep "\n\n".data (fns.map entryLine)) :=
    rfl
  rw [hsplit, neLines_cons_nl, neLines_cons_nl,
    neLines_block "## Footnotes".data _ (by decide) (by decide),
    neLines_joinSep _ hcond]

/-! ## Footnote numbering (C3, C9) -/

theorem enumMap_len (f : Nat → Node → Footnote) :
    ∀ (i : Nat) (l : List Node), (enumMap f i l).length = l.length := by
  intro i l
  induction l generalizing i with
  | nil => rfl
  | cons x xs ih => simp [enumMap, ih]

theorem enumMap_nums (f : Nat → Node → Footnote) (hf : ∀ i x, (f i x).num = i) :
    ∀ (i : Nat) (l : List Node),
    (enumMap f i l).map Footnote.num = List.range' i l.length := by
  intro i l
  induction l generalizing i with
  | nil => rfl
  | cons x xs ih => simp [enumMap, List.range', hf i x, ih (i + 1)]

theorem extract_nums (render : List Node → List Char) (soup : Node) :
    (extract_footnotes render soup).map Footnote.num =
      List.range' 1 (extract_footnotes render soup).length := by
  unfold extract_footnotes
  split
  · simp
  · split
    · rw [enumMap_len, enumMap_nums _ (fun i x => rfl)]
    · dsimp only
      split
      · simp [List.range', mkFootnote]
      · rw [enumMap_len, enumMap_nums _ (fun i x => rfl)]

/-- C3: in every enumeration branch (ordered-list items, typed direct
children, whole-container single entry) the extracted records carry
sequence numbers exactly `1..N` in extraction order; whenever each rendered
entry line is newline-free, the rendered footnotes section consists of the
heading line plus exactly one nonempty line per record; and the final
blank-line normalization never changes the nonempty lines of the output. -/
theorem footnotes_numbering_and_lines :
    (∀ (render : List Node → List Char) (soup : Node),
      (extract_footnotes render soup).map Footnote.num =
        List.range' 1 (extract_footnotes render soup).length) ∧
    (∀ fns : List Footnote, fns ≠ [] →
      (∀ e ∈ fns, (entryLine e).all (· != '\n') = true) →
      neLines (footMd fns) = "## Footnotes".data :: fns.map entryLine ∧
      (neLines (footMd fns)).length = fns.length + 1) ∧
    (∀ s : List Char, neLines (collapseBlankRuns s) = neLines s) := by
  refine ⟨extract_nums, ?_, fun s => neLines_collapseAux s 0⟩
  intro fns hne h
  have hlines := footMd_lines fns hne h
  refine ⟨hlines, ?_⟩
  rw [hlines]
  simp

/-- Witness for `footnotes_numbering_and_lines`: on the two-footnote
fixtures the extractor numbers the records 1, 2 and the rendered section
has the heading plus one line per record. -/
theorem footnotes_numbering_and_lines_witness :
    (extract_footnotes renderText fixSoup).map Footnote.num = [1, 2] ∧
    neLines (footMd fixFns) =
      ["## Footnotes".data, "[1] first".data, "[2] second".data] := by
  obtain ⟨h1, h2, _h3⟩ := footnotes_numbering_and_lines
  constructor
  · rw [h1 renderText fixSoup]
    decide
  · rw [(h2 fixFns (by decide) (by decide)).1]
    decide

/-! ## Reference mapping injectivity (C9) -/

/-- C9: within one page, the mapping built from the extracted footnotes
(`{e['id']: e['num']}` with last-wins dict semantics) sends distinct
local-ids to distinct sequence numbers — two different local-ids never
resolve to the same bracket number. -/
theorem referenceMapping_injective (render : List Node → List Char) (soup : Node)
    (i1 i2 : List Char) (n1 n2 : Nat) (hne : i1 ≠ i2)
    (h1 : idToNum (extract_footnotes render soup) i1 = some n1)
    (h2 : idToNum (extract_footnotes render soup) i2 = some n2) :
    n1 ≠ n2 := by
  unfold idToNum at h1 h2
  obtain ⟨e1, hf1, hn1⟩ := Option.map_eq_some'.mp h1
  obtain ⟨e2, hf2, hn2⟩ := Option.map_eq_some'.mp h2
  have hm1 : e1 ∈ extract_footnotes render soup :=
    List.mem_reverse.mp (List.mem_of_find?_eq_some hf1)
  have hm2 : e2 ∈ extract_footnotes render soup :=
    List.mem_reverse.mp (List.mem_of_find?_eq_some hf2)
  have hid1 : e1.fid = i1 := by
    have := List.find?_some hf1
    simpa using this
  have hid2 : e2.fid = i2 := by
    have := List.find?_some hf2
    simpa using this
  have hnd : ((extract_footnotes render soup).map Footnote.num).Nodup := by
    rw [extract_nums render soup]
    exact List.nodup_range' _ _
  intro heq
  have : e1 = e2 :=
    List.inj_on_of_nodup_map hnd hm1 hm2 (by rw [hn1, hn2, heq])
  exact hne (by rw [← hid1, ← hid2, this])

/-- Witness for `referenceMapping_injective`: on the fixture page the ids
`x` and `y` resolve to 1 and 2, which the theorem proves distinct. -/
theorem referenceMapping_injective_witness :
    idToNum (extract_footnotes renderText fixSoup) "x".data = some 1 ∧
    idToNum (extract_footnotes renderText fixSoup) "y".data = some 2 ∧
    (1 : Nat) ≠ 2 := by
  refine ⟨by decide, by decide, ?_⟩
  exact referenceMapping_injective renderText fixSoup "x".data "y".data 1 2
    (by decide) (by decide) (by decide)

/-! ## Reference Resolver with no footnotes (C10) -/

theorem anchorFallback_fires (cls text : List Char)
    (hq : (clsFnrefHit cls || pyIsDigit text) = true) (hlen : text.length ≤ 6) :
    anchorFallback cls text = some (bracketTxt text) := by
  unfold anchorFallback
  rw [if_pos]
  rw [hq]
  simpa using hlen

/-- C10 counterexample: an anchor whose class is `fnref` but whose visible
text has 7 characters is left untouched even with no footnotes, though the
claim says every class-marked hyperlink is rewritten. -/
theorem inlineRefs_long_class_link_cex :
    replace_inline_footnote_refs [] longFnrefPage = longFnrefPage ∧
    clsFnrefHit "fnref".data = true ∧
    ("abcdefg".data).length = 7 :=
  ⟨rfl, by decide, by decide⟩

/-- C10 (amended): even with an empty extracted footnote list, the
Reference Resolver rewrites to bracket form every hyperlink whose class
signals a footnote reference or whose visible text is purely numeric —
provided the visible text is at most 6 characters, a bound the code also
applies to the class-marked case — and every superscript whose sole
visible text (once the anchor pass has run) is a number of at most 4
digits; a page with no footnotes at all is therefore still modified. -/
theorem inlineRefs_rewrite_without_footnotes :
    (∀ (ats : Attrs) (cs : List Node),
      (clsFnrefHit ats.cls ||
        pyIsDigit (getTextStripN (Node.elem "a".data ats cs))) = true →
      (getTextStripN (Node.elem "a".data ats cs)).length ≤ 6 →
      anchorAction [] (Node.elem "a".data ats cs) =
        some (bracketTxt (getTextStripN (Node.elem "a".data ats cs)))) ∧
    (∀ (ats : Attrs) (cs : List Node),
      pyIsDigit (getTextStripN (Node.elem "sup".data ats cs)) = true →
      (getTextStripN (Node.elem "sup".data ats cs)).length ≤ 4 →
      supAction (Node.elem "sup".data ats cs) =
        some (bracketTxt (getTextStripN (Node.elem "sup".data ats cs)))) ∧
    replace_inline_footnote_refs [] noFootnotesPage =
      Node.elem "body".data {}
        [Node.text "Verse ".data, Node.text "[2]".data,
         Node.text " and ".data, Node.text "[3]".data] := by
  refine ⟨?_, ?_, rfl⟩
  · intro ats cs hq hlen
    unfold anchorAction
    rw [if_pos (by simp [isTag])]
    dsimp only
    have hats : attrsOf (Node.elem "a".data ats cs) = ats := rfl
    rw [hats]
    split
    · rename_i target heq
      have hid : idToNum ([] : List Footnote) target = none := rfl
      rw [hid]
      dsimp only
      split
      · rename_i run hrun
        rw [if_neg (by simp [knownNums])]
        exact anchorFallback_fires ats.cls _ hq hlen
      · exact anchorFallback_fires ats.cls _ hq hlen
    · exact anchorFallback_fires ats.cls _ hq hlen
  · intro ats cs hd hlen
    unfold supAction
    rw [if_pos (by simp [isTag])]
    dsimp only
    rw [if_pos]
    rw [hd]
    simpa using hlen

/-- Witness for `inlineRefs_rewrite_without_footnotes`: with no footnotes, a
`fnref`-classed anchor with text `2` becomes `[2]` and a bare superscript
`3` becomes `[3]`. -/
theorem inlineRefs_rewrite_without_footnotes_witness :
    anchorAction [] (Node.elem "a".data { cls := "fnref".data } [Node.text "2".data]) =
      some "[2]".data ∧
    supAction (Node.elem "sup".data {} [Node.text "3".data]) = some "[3]".data := by
  obtain ⟨ha, hs, _hc⟩ := inlineRefs_rewrite_without_footnotes
  constructor
  · rw [ha { cls := "fnref".data } [Node.text "2".data] (by decide) (by decide)]
    rfl
  · rw [hs {} [Node.text "3".data] (by decide) (by decide)]
    rfl
